import Mathlib

/-!
Verification of the magneticod persistence facade (C8) and infohash filter (C2)
against the repository sources, chiefly `magneticod/persistence.py` (the newer
of the two persistence layers, the one the spec codifies), `models.py`,
`constants.py` and `__main__.py`.  Bytes are modelled as `List Nat`
(each entry a byte value), Python ints as `Int`, and the mutable
`Database` object as an explicit `DBState` record threaded through the
operations.  Database outcomes that depend on the external SQL backend
(success, `IntegrityError`, `InterfaceError`, other) are passed in as an
explicit `CommitOutcome` parameter.
-/

/-- Bencoded values: byte-string, integer, list, dictionary
(association list of byte-string keys). -/
inductive BValue where
  | str : List Nat → BValue
  | int : Int → BValue
  | list : List BValue → BValue
  | dict : List (List Nat × BValue) → BValue

/-- Byte is an ASCII decimal digit. -/
def isDigit (c : Nat) : Bool := 48 ≤ c && c ≤ 57

/-- Numeric value of a list of ASCII digits. -/
def digitsToNat (ds : List Nat) : Nat := ds.foldl (fun a d => a * 10 + (d - 48)) 0

/-- Modelled from the spec (§4.1): the repository's `bencode` module is not
under `src/`.  Parse the body of `i<signed-decimal>e` (after the leading `i`),
rejecting empty digit runs, leading zeros (except `i0e`) and negative zero. -/
def parseIntBody (l : List Nat) : Option (Int × List Nat) :=
  match l with
  | 45 :: rest =>
    let p := rest.span isDigit
    match p.2 with
    | 101 :: r =>
      if p.1.isEmpty then none
      else if p.1.head? == some 48 then none
      else some (-(digitsToNat p.1 : Int), r)
    | _ => none
  | _ =>
    let p := l.span isDigit
    match p.2 with
    | 101 :: r =>
      if p.1.isEmpty then none
      else if p.1.head? == some 48 && p.1.length != 1 then none
      else some ((digitsToNat p.1 : Int), r)
    | _ => none

/-- Modelled from the spec (§4.1): parse a byte-string `<len>:<bytes>`,
failing on a non-digit length prefix or unexpected EOF. -/
def parseStr (l : List Nat) : Option (List Nat × List Nat) :=
  let p := l.span isDigit
  if p.1.isEmpty then none
  else
    match p.2 with
    | 58 :: r =>
      let n := digitsToNat p.1
      if r.length < n then none
      else some (r.take n, r.drop n)
    | _ => none

mutual
/-- Modelled from the spec (§4.1): the repository's `bencode` module is not
under `src/`.  Fuelled decoder for one bencoded value; returns the value and
the remaining bytes. -/
def decodeVal : Nat → List Nat → Option (BValue × List Nat)
  | 0, _ => none
  | fuel + 1, l =>
    match l with
    | 105 :: rest => (parseIntBody rest).map (fun p => (BValue.int p.1, p.2))
    | 108 :: rest => (decodeItems fuel rest).map (fun p => (BValue.list p.1, p.2))
    | 100 :: rest => (decodePairs fuel rest).map (fun p => (BValue.dict p.1, p.2))
    | c :: _ => if isDigit c then (parseStr l).map (fun p => (BValue.str p.1, p.2)) else none
    | [] => none

/-- Modelled from the spec (§4.1): decode list items until the closing `e`. -/
def decodeItems : Nat → List Nat → Option (List BValue × List Nat)
  | 0, _ => none
  | fuel + 1, l =>
    match l with
    | 101 :: r => some ([], r)
    | _ =>
      match decodeVal fuel l with
      | some (v, r) =>
        match decodeItems fuel r with
        | some (vs, r2) => some (v :: vs, r2)
        | none => none
      | none => none

/-- Modelled from the spec (§4.1): decode dictionary key-value pairs until the
closing `e`; keys may arrive in any order but duplicate keys are rejected. -/
def decodePairs : Nat → List Nat → Option (List (List Nat × BValue) × List Nat)
  | 0, _ => none
  | fuel + 1, l =>
    match l with
    | 101 :: r => some ([], r)
    | _ =>
      match parseStr l with
      | some (k, r) =>
        match decodeVal fuel r with
        | some (v, r2) =>
          match decodePairs fuel r2 with
          | some (ps, r3) =>
            if ps.any (fun p => p.1 == k) then none else some ((k, v) :: ps, r3)
          | none => none
        | none => none
      | none => none
end

/-- Modelled from the spec (§4.1): `bencode.loads` decodes a complete value,
rejecting trailing bytes. -/
def bencode_loads (m : List Nat) : Option BValue :=
  match decodeVal (m.length + 1) m with
  | some (v, []) => some v
  | _ => none

/-- Modelled after Python's strict UTF-8 decoder (`bytes.decode("utf-8")`,
used by `add_metadata` on names and path components): fuelled validity check
rejecting overlong forms, surrogates and code points above U+10FFFF. -/
def utf8Go : Nat → List Nat → Bool
  | 0, _ => false
  | _ + 1, [] => true
  | fuel + 1, c :: rest =>
    if c ≤ 0x7F then utf8Go fuel rest
    else if 0xC2 ≤ c && c ≤ 0xDF then
      match rest with
      | c1 :: r1 => (0x80 ≤ c1 && c1 ≤ 0xBF) && utf8Go fuel r1
      | _ => false
    else if 0xE0 ≤ c && c ≤ 0xEF then
      match rest with
      | c1 :: c2 :: r2 =>
        (if c == 0xE0 then 0xA0 ≤ c1 && c1 ≤ 0xBF
         else if c == 0xED then 0x80 ≤ c1 && c1 ≤ 0x9F
         else 0x80 ≤ c1 && c1 ≤ 0xBF) &&
        (0x80 ≤ c2 && c2 ≤ 0xBF) && utf8Go fuel r2
      | _ => false
    else if 0xF0 ≤ c && c ≤ 0xF4 then
      match rest with
      | c1 :: c2 :: c3 :: r3 =>
        (if c == 0xF0 then 0x90 ≤ c1 && c1 ≤ 0xBF
         else if c == 0xF4 then 0x80 ≤ c1 && c1 ≤ 0x8F
         else 0x80 ≤ c1 && c1 ≤ 0xBF) &&
        (0x80 ≤ c2 && c2 ≤ 0xBF) && (0x80 ≤ c3 && c3 ≤ 0xBF) && utf8Go fuel r3
      | _ => false
    else false

/-- Valid strict UTF-8 byte sequence. -/
def isValidUtf8 (l : List Nat) : Bool := utf8Go (l.length + 1) l

/-- Byte-string key `b"name"`. -/
def nameKey : List Nat := [110, 97, 109, 101]
/-- Byte-string key `b"length"`. -/
def lengthKey : List Nat := [108, 101, 110, 103, 116, 104]
/-- Byte-string key `b"files"`. -/
def filesKey : List Nat := [102, 105, 108, 101, 115]
/-- Byte-string key `b"path"`. -/
def pathKey : List Nat := [112, 97, 116, 104]
/-- The literal bytes `b"test"` recognised by `add_metadata`'s shortcut. -/
def testBytes : List Nat := [116, 101, 115, 116]

/-- Lookup in a decoded bencode dictionary (Python `info[key]`/`key in info`
on the dict produced by `bencode.loads`). -/
def lookupB (d : List (List Nat × BValue)) (k : List Nat) : Option BValue :=
  match d with
  | [] => none
  | (k1, v) :: rest => if k1 = k then some v else lookupB rest k

/-- Python iteration over a decoded bencode value (`for x in v`): lists yield
their items, dictionaries their keys, byte-strings their bytes as integers;
integers are not iterable. -/
def iterateB : BValue → Option (List BValue)
  | .list l => some l
  | .dict d => some (d.map (fun p => BValue.str p.1))
  | .str s => some (s.map (fun c => BValue.int (c : Int)))
  | .int _ => none

/-- Join path components with `/` (byte 47), as Python's
`"/".join(i.decode("utf-8") for i in file[b"path"])`. -/
def joinSlash : List (List Nat) → List Nat
  | [] => []
  | [x] => x
  | x :: xs => x ++ 47 :: joinSlash xs

/-- Each iterated item of `file[b"path"]` must be a byte-string — Python's
`b"/" in item` followed by `item.decode("utf-8")` raises on every other
shape (see `iterateB` for what iteration yields). -/
def strItems : List BValue → Option (List (List Nat))
  | [] => some []
  | v :: vs =>
    match v with
    | .str s => (strItems vs).map (fun ss => s :: ss)
    | _ => none

/-- Processing of one entry of `info[b"files"]` inside `add_metadata`
(persistence.py lines 139-150): the entry must be a dictionary whose
`length` is an integer and whose `path` iterates to byte-strings free of `/`
(the `assert not any(b"/" in item for item in file[b"path"])` at line 142)
and decodable as UTF-8; yields `(size, path items)` — the `/`-join into the
stored `path` column happens when the file row is built.  Any other shape
raises `AssertionError`/`KeyError`/`TypeError`/`AttributeError`/
`UnicodeDecodeError` in the source, all of which make `add_metadata` return
`False`. -/
def fileEntry (v : BValue) : Option (Int × List (List Nat)) :=
  match v with
  | .dict fd =>
    match lookupB fd lengthKey with
    | some (.int len) =>
      match lookupB fd pathKey with
      | some pv =>
        match (iterateB pv).bind strItems with
        | some comps =>
          if comps.any (fun c => c.contains 47) then none
          else if comps.all (fun c => isValidUtf8 c) then some (len, comps)
          else none
        | none => none
      | none => none
    | _ => none
  | _ => none

/-- The `for file in info[b"files"]` loop: each entry through `fileEntry`,
failing as soon as one entry fails. -/
def filesOf : List BValue → Option (List (Int × List (List Nat)))
  | [] => some []
  | v :: vs => (fileEntry v).bind (fun e => (filesOf vs).map (fun es => e :: es))

/-- Extraction step of `add_metadata` (persistence.py lines 135-159), from
the decoded `info` value to the torrent name and the `(size, path items)`
list: asserts `b"/" not in info[b"name"]`, decodes the name as UTF-8, then
follows the multi-file branch when `b"files" in info` and the single-file
branch otherwise (there Python stores `path = name`, i.e. the single path
item is the name).  Returns `none` exactly when the source hits one of the
caught exceptions and returns `False`. -/
def processCore (info : BValue) :
    Option (List Nat × List (Int × List (List Nat))) :=
  match info with
  | .dict d =>
    match lookupB d nameKey with
    | some (.str name) =>
      if name.contains 47 then none
      else if isValidUtf8 name then
        match lookupB d filesKey with
        | some fv => ((iterateB fv).bind filesOf).map (fun fs => (name, fs))
        | none =>
          match lookupB d lengthKey with
          | some (.int len) => some (name, [(len, [name])])
          | _ => none
      else none
    | _ => none
  | _ => none

/-- The decode step of `add_metadata` (persistence.py lines 130-133): the
literal bytes `b"test"` bypass bencode decoding and stand for the info dict
`{b"name": b"test", b"length": 123}`; anything else goes through
`bencode.loads`. -/
def toInfo (metadata : List Nat) : Option BValue :=
  if metadata = testBytes then
    some (.dict [(nameKey, .str testBytes), (lengthKey, .int 123)])
  else bencode_loads metadata

/-- One buffered torrent row (`self.__pending_metadata` entries in
persistence.py lines 170-175 and the `torrents` table of models.py). -/
structure TorrentRow where
  info_hash : List Nat
  name : List Nat
  total_size : Int
  discovered_on : Nat
deriving DecidableEq

/-- One buffered file row (`self.__pending_files` entries; the `torrent`
field models the subquery `Torrent.select(Torrent.id).where(Torrent.info_hash
== info_hash)`, i.e. a reference by info_hash). -/
structure FileRow where
  torrent : List Nat
  size : Int
  path : List Nat
deriving DecidableEq

/-- State of the `Database` object of persistence.py.  The `buffered*` fields
are ghost instrumentation: the history of every row ever appended to the
pending buffers (never cleared), `bufferedComponents` the corresponding
history of the pre-join path-item lists each buffered file row was built
from (one list per file row, in order), and `commitCount` counts the calls
of `__commit_metadata`; none of these influences any behaviour. -/
structure DBState where
  pendingMetadata : List TorrentRow
  pendingFiles : List FileRow
  store : List TorrentRow
  storeFiles : List FileRow
  commitN : Nat
  cntCatched : Nat
  cntKnown : Nat
  cntAdded : Nat
  cntErrors : Nat
  catched : Nat
  newCount : Nat
  reconnects : Nat
  commitCount : Nat
  bufferedMeta : List TorrentRow
  bufferedFiles : List FileRow
  bufferedComponents : List (List (List Nat))
deriving DecidableEq

/-- Outcome of the database transaction attempted by `__commit_metadata`,
decided by the external SQL backend. -/
inductive CommitOutcome where
  | success
  | integrityError
  | interfaceError
  | otherError
deriving DecidableEq

/-- Embedding of `Database.__commit_metadata` (persistence.py lines 209-240):
`n` is the batch size taken at entry; on success the batch is inserted
atomically and both buffers cleared (`_cnt['added'] += n`); on
`peewee.IntegrityError` both buffers are cleared and `_cnt['errors'] += n`;
on `peewee.InterfaceError` the connection is reinitialised (`self._connect()`)
and the buffers are left untouched; on any other exception both buffers are
cleared and `_cnt['errors'] += n`. -/
def commit_metadata (o : CommitOutcome) (st : DBState) : DBState :=
  let n := st.pendingMetadata.length
  match o with
  | .success =>
    { st with store := st.store ++ st.pendingMetadata,
              storeFiles := st.storeFiles ++ st.pendingFiles,
              pendingMetadata := [], pendingFiles := [],
              cntAdded := st.cntAdded + n,
              commitCount := st.commitCount + 1 }
  | .integrityError =>
    { st with pendingMetadata := [], pendingFiles := [],
              cntErrors := st.cntErrors + n,
              commitCount := st.commitCount + 1 }
  | .interfaceError =>
    { st with reconnects := st.reconnects + 1,
              commitCount := st.commitCount + 1 }
  | .otherError =>
    { st with pendingMetadata := [], pendingFiles := [],
              cntErrors := st.cntErrors + n,
              commitCount := st.commitCount + 1 }

/-- Embedding of `Database.add_metadata` (persistence.py lines 126-189):
decode (with the `b"test"` shortcut), validate, and on success append one
torrent row and the file rows to the pending buffers, then call
`__commit_metadata` when `len(self.__pending_metadata) >= self._commit_n`.
On any caught exception return `False` with the state untouched.  `now` is
`int(datetime.datetime.now().timestamp())` and `o` the backend's outcome for
a commit, should one be attempted. -/
def add_metadata (info_hash metadata : List Nat) (now : Nat) (o : CommitOutcome)
    (st : DBState) : DBState × Bool :=
  match (toInfo metadata).bind processCore with
  | none => (st, false)
  | some (name, entries) =>
    let files : List FileRow :=
      entries.map (fun e => ⟨info_hash, e.1, joinSlash e.2⟩)
    let row : TorrentRow :=
      ⟨info_hash, name, (entries.map (fun e => e.1)).sum, now⟩
    let st1 := { st with
      pendingMetadata := st.pendingMetadata ++ [row],
      pendingFiles := st.pendingFiles ++ files,
      bufferedMeta := st.bufferedMeta ++ [row],
      bufferedFiles := st.bufferedFiles ++ files,
      bufferedComponents := st.bufferedComponents ++ entries.map (fun e => e.2) }
    if st.commitN ≤ st1.pendingMetadata.length then (commit_metadata o st1, true)
    else (st1, true)

/-- Embedding of `Database.is_infohash_new` (persistence.py lines 191-207):
bumps the `catched` counters, returns `None` when `skip_check`, `False` when
the hash sits in the pending batch, otherwise counts matching rows in the
`torrents` table and returns whether that count is zero, updating the
`known`/`new` counters. -/
def is_infohash_new (h : List Nat) (skipCheck : Bool) (st : DBState) :
    DBState × Option Bool :=
  let st1 := { st with cntCatched := st.cntCatched + 1, catched := st.catched + 1 }
  if skipCheck then (st1, none)
  else if h ∈ st1.pendingMetadata.map (fun r => r.info_hash) then
    ({ st1 with cntKnown := st1.cntKnown + 1 }, some false)
  else
    let x := (st1.store.filter (fun r => r.info_hash == h)).length
    ({ st1 with cntKnown := st1.cntKnown + (if 0 < x then 1 else 0),
                newCount := st1.newCount + (if x = 0 then 1 else 0) },
     some (x == 0))

/-- Modelled from the spec (§4.2, §4.5): the external-cache membership check
lives in `dht.py` (`SybilNode`), which is not under `src/`; the spec says the
filter answers "not new" when the hash is in the optional external cache,
before falling back to `is_infohash_new`.  `cache` is `none` when no
`--memcache` daemon is configured. -/
def is_new_with_cache (cache : Option (List (List Nat))) (h : List Nat)
    (st : DBState) : DBState × Option Bool :=
  match cache with
  | some c => if h ∈ c then (st, some false) else is_infohash_new h false st
  | none => is_infohash_new h false st

/-- Character of the RFC 4648 base32 alphabet (`A`-`Z` then `2`-`7`), as used
by Python's `base64.b32encode`. -/
def b32char (i : Nat) : Nat := if i < 26 then 65 + i else 50 + (i - 26)

/-- Encoding of one input group of 1-5 bytes into 8 base32 characters
(with `=` padding, byte 61), as `base64.b32encode` does per group. -/
def b32chunk (g : List Nat) : List Nat :=
  let n := g.length
  let v := g.foldl (fun a b => a * 256 + b) 0 * 2 ^ (8 * (5 - n))
  let idx := (List.range 8).map (fun k => v / 2 ^ (35 - 5 * k) % 32)
  let cn := match n with | 1 => 2 | 2 => 4 | 3 => 5 | 4 => 7 | _ => 8
  (idx.take cn).map b32char ++ List.replicate (8 - cn) 61

/-- Python's `base64.b32encode`: RFC 4648 base32 over successive 5-byte
groups. -/
def b32encode : List Nat → List Nat
  | [] => []
  | a :: b :: c :: d :: e :: rest => b32chunk [a, b, c, d, e] ++ b32encode rest
  | l => b32chunk l

/-- One row of the `torrents` table as seen by `heat_memcache` (only the
`id` and `info_hash` columns are selected). -/
structure StoredTorrent where
  id : Nat
  info_hash : List Nat
deriving DecidableEq

/-- Embedding of `Database.heat_memcache` (persistence.py lines 66-80):
`min_id`/`max_id` come from the extremal-id queries (`.get()` raises when
the table is empty, modelled as `none`), the id space is walked in
`chunk_size` blocks `[a, b)`, and each torrent row selected in a block
produces one `cache.set(base64.b32encode(info_hash), '1')`, modelled as the
pair `(b32encode info_hash, [49])` in the returned write list.  `inChunk`
is the block-selection predicate `(Torrent.id >= a) & (Torrent.id < b)` with
`a = ch_id * chunk_size + min_id` and `b = a + chunk_size`. -/
def inChunk (chunk_size min_id ch : Nat) (tor : StoredTorrent) : Bool :=
  decide (ch * chunk_size + min_id ≤ tor.id)
    && decide (tor.id < ch * chunk_size + min_id + chunk_size)

/-- The single cache write `cache.set(base64.b32encode(torrent.info_hash),
'1')` for one selected torrent row, as a key-value pair. -/
def heatWrite (tor : StoredTorrent) : List Nat × List Nat :=
  (b32encode tor.info_hash, [49])

def heat_memcache : List StoredTorrent → Nat → Option (List (List Nat × List Nat))
  | [], _ => none
  | t :: ts, chunk_size =>
    let min_id := ts.foldl (fun m s => Nat.min m s.id) t.id
    let max_id := ts.foldl (fun m s => Nat.max m s.id) t.id + 1
    let chunks := (max_id - min_id) / chunk_size + 1
    some ((List.range chunks).flatMap (fun ch =>
      ((t :: ts).filter (inChunk chunk_size min_id ch)).map heatWrite))

/-- What `__main__.main` proceeds to after connecting the database. -/
inductive MainAction where
  | heatAndExit
  | runNodes
deriving DecidableEq

/-- Embedding of the dispatch in `__main__.main` (lines 171-183): with
`--heat-memcache` set, `database.heat_memcache(cache)` runs and `main`
returns before any `SybilNode` is constructed; otherwise the DHT nodes are
started. -/
def mainAction (heatMemcacheFlag : Bool) : MainAction :=
  if heatMemcacheFlag then .heatAndExit else .runNodes

/-- An empty database state with batch size 10, used as concrete witness
input. -/
def sampleState : DBState :=
  { pendingMetadata := [], pendingFiles := [], store := [], storeFiles := [],
    commitN := 10, cntCatched := 0, cntKnown := 0, cntAdded := 0,
    cntErrors := 0, catched := 0, newCount := 0, reconnects := 0,
    commitCount := 0, bufferedMeta := [], bufferedFiles := [],
    bufferedComponents := [] }

/-- Twenty zero bytes: a concrete info_hash. -/
def hashA : List Nat := List.replicate 20 0
/-- A second concrete 20-byte info_hash, different from `hashA`. -/
def hashB : List Nat := 1 :: List.replicate 19 0
/-- The bytes of `d6:lengthi0e4:name1:ae`: a single-file info dict with
name `a` and length `0`. -/
def zeroLenMeta : List Nat :=
  [100, 54, 58, 108, 101, 110, 103, 116, 104, 105, 48, 101,
   52, 58, 110, 97, 109, 101, 49, 58, 97, 101]
/-- The bytes of `d6:lengthi1e4:name3:a<NUL>be`: a single-file info dict
whose name contains a NUL byte. -/
def nulNameMeta : List Nat :=
  [100, 54, 58, 108, 101, 110, 103, 116, 104, 105, 49, 101,
   52, 58, 110, 97, 109, 101, 51, 58, 97, 0, 98, 101]

/-- Every call of `__commit_metadata` leaves the ghost history of buffered
torrent rows unchanged. -/
theorem commit_metadata_bufferedMeta (o : CommitOutcome) (st : DBState) :
    (commit_metadata o st).bufferedMeta = st.bufferedMeta := by
  cases o <;> rfl

/-- Every call of `__commit_metadata` leaves the ghost history of buffered
file rows unchanged. -/
theorem commit_metadata_bufferedFiles (o : CommitOutcome) (st : DBState) :
    (commit_metadata o st).bufferedFiles = st.bufferedFiles := by
  cases o <;> rfl

/-- Every call of `__commit_metadata` leaves the ghost history of path-item
lists unchanged. -/
theorem commit_metadata_bufferedComponents (o : CommitOutcome) (st : DBState) :
    (commit_metadata o st).bufferedComponents = st.bufferedComponents := by
  cases o <;> rfl

/-- Every call of `__commit_metadata` bumps the ghost attempt counter by
one, whatever the backend outcome. -/
theorem commit_metadata_commitCount (o : CommitOutcome) (st : DBState) :
    (commit_metadata o st).commitCount = st.commitCount + 1 := by
  cases o <;> rfl

/-- The boolean returned by `add_metadata` records exactly whether the
decode-and-validate stage succeeded. -/
theorem add_metadata_snd (h m : List Nat) (now : Nat) (o : CommitOutcome)
    (st : DBState) :
    (add_metadata h m now o st).2 = ((toInfo m).bind processCore).isSome := by
  cases hp : (toInfo m).bind processCore with
  | none => simp [add_metadata, hp]
  | some p =>
    obtain ⟨name, entries⟩ := p
    simp only [add_metadata, hp, Option.isSome_some]
    split <;> rfl

/-- A rejected `add_metadata` call returns with the `Database` state exactly
as it was. -/
theorem add_metadata_false_state {h m : List Nat} {now : Nat}
    {o : CommitOutcome} {st st' : DBState}
    (hcall : add_metadata h m now o st = (st', false)) : st' = st := by
  have hsnd := add_metadata_snd h m now o st
  rw [hcall] at hsnd
  have hb : (toInfo m).bind processCore = none := by
    cases hb2 : (toInfo m).bind processCore with
    | none => rfl
    | some p => rw [hb2] at hsnd; simp at hsnd
  unfold add_metadata at hcall
  rw [hb] at hcall
  exact congrArg Prod.fst hcall |>.symm

/-- A successful decode-and-validate stage makes `add_metadata` append one
torrent row (carrying the handed `info_hash`, the validated name, the summed
size and the timestamp) and the extracted file rows, then commit when the
buffer has reached `commit_n`. -/
theorem add_metadata_some {h m : List Nat} {now : Nat} {o : CommitOutcome}
    {st : DBState} {name : List Nat} {entries : List (Int × List (List Nat))}
    (hp : (toInfo m).bind processCore = some (name, entries)) :
    add_metadata h m now o st =
      (let row : TorrentRow := ⟨h, name, (entries.map (fun e => e.1)).sum, now⟩
       let files : List FileRow :=
         entries.map (fun e => ⟨h, e.1, joinSlash e.2⟩)
       let st1 : DBState := { st with
         pendingMetadata := st.pendingMetadata ++ [row],
         pendingFiles := st.pendingFiles ++ files,
         bufferedMeta := st.bufferedMeta ++ [row],
         bufferedFiles := st.bufferedFiles ++ files,
         bufferedComponents := st.bufferedComponents ++ entries.map (fun e => e.2) }
       if st.commitN ≤ st1.pendingMetadata.length then (commit_metadata o st1, true)
       else (st1, true)) := by
  simp only [add_metadata, hp]

/-- A successful decode-and-validate stage pins the torrent name: the name is
the byte-string under `b"name"` and it passed the
`assert b"/" not in info[b"name"]` check. -/
theorem processCore_name_ok {info : BValue} {name : List Nat}
    {es : List (Int × List (List Nat))}
    (hp : processCore info = some (name, es)) : name.contains 47 = false := by
  unfold processCore at hp
  split at hp <;> try exact Option.noConfusion hp
  split at hp <;> try exact Option.noConfusion hp
  split at hp
  · exact Option.noConfusion hp
  split at hp
  case isFalse => exact Option.noConfusion hp
  split at hp
  · rcases Option.map_eq_some'.mp hp with ⟨fs, hfs, hpair⟩
    have h1 : _ = name := congrArg Prod.fst hpair
    simp_all
  split at hp <;> try exact Option.noConfusion hp
  have h1 : _ = name := congrArg Prod.fst (Option.some.inj hp)
  simp_all

/-- C10: a rejected `add_metadata` call (bencode error, missing key, type
error, or failed validation) leaves both pending buffers — and in fact the
whole `Database` state — exactly as they were before the call. -/
theorem claim_C10_add_metadata_failure_atomic {h m : List Nat} {now : Nat}
    {o : CommitOutcome} {st st' : DBState}
    (hcall : add_metadata h m now o st = (st', false)) :
    st'.pendingMetadata = st.pendingMetadata
    ∧ st'.pendingFiles = st.pendingFiles
    ∧ st' = st := by
  have hst := add_metadata_false_state hcall
  subst hst
  exact ⟨rfl, rfl, rfl⟩

/-- Witness for C10 at the concrete invalid metadata `b"x"` (not bencode)
against the empty sample state. -/
theorem claim_C10_witness :
    (add_metadata hashA [120] 5 CommitOutcome.success sampleState).1.pendingMetadata
        = sampleState.pendingMetadata
    ∧ (add_metadata hashA [120] 5 CommitOutcome.success sampleState).1.pendingFiles
        = sampleState.pendingFiles
    ∧ (add_metadata hashA [120] 5 CommitOutcome.success sampleState).1 = sampleState :=
  @claim_C10_add_metadata_failure_atomic hashA [120] 5 CommitOutcome.success
    sampleState _ (by decide)

/-- C3: for every 20-byte info_hash, `add_metadata` on the literal bytes
`b"test"` succeeds without bencode decoding (which would fail on those
bytes), buffering one torrent row named `test` of total size 123 and one
file row — regardless of any relation between the hash and the bytes. -/
theorem claim_C3_test_backdoor (h : List Nat) (now : Nat) (o : CommitOutcome)
    (st : DBState) (hlen : h.length = 20) :
    (add_metadata h testBytes now o st).2 = true
    ∧ (add_metadata h testBytes now o st).1.bufferedMeta
        = st.bufferedMeta ++ [⟨h, testBytes, 123, now⟩]
    ∧ (add_metadata h testBytes now o st).1.bufferedFiles
        = st.bufferedFiles ++ [⟨h, 123, testBytes⟩]
    ∧ bencode_loads testBytes = none := by
  have hp : (toInfo testBytes).bind processCore
      = some (testBytes, [((123 : Int), [testBytes])]) := rfl
  have he := @add_metadata_some h testBytes now o st testBytes
    [((123 : Int), [testBytes])] hp
  refine ⟨?_, ?_, ?_, rfl⟩ <;> rw [he] <;> dsimp only <;> split <;>
    simp [commit_metadata_bufferedMeta, commit_metadata_bufferedFiles, joinSlash]

/-- Witness for C3 at the all-zero 20-byte hash and the sample state. -/
theorem claim_C3_witness :
    (add_metadata hashA testBytes 5 CommitOutcome.success sampleState).2 = true
    ∧ (add_metadata hashA testBytes 5 CommitOutcome.success sampleState).1.bufferedMeta
        = sampleState.bufferedMeta ++ [⟨hashA, testBytes, 123, 5⟩]
    ∧ (add_metadata hashA testBytes 5 CommitOutcome.success sampleState).1.bufferedFiles
        = sampleState.bufferedFiles ++ [⟨hashA, 123, testBytes⟩]
    ∧ bencode_loads testBytes = none :=
  claim_C3_test_backdoor hashA 5 CommitOutcome.success sampleState (by decide)

/-- C4: on a unique-constraint (integrity) violation during batch commit,
both pending buffers are cleared — nothing of the batch is retried, the
durable store is untouched — and the error counter is incremented by the
number of dropped metadata rows. -/
theorem claim_C4_integrity_drops_batch (st : DBState) :
    (commit_metadata CommitOutcome.integrityError st).pendingMetadata = []
    ∧ (commit_metadata CommitOutcome.integrityError st).pendingFiles = []
    ∧ (commit_metadata CommitOutcome.integrityError st).cntErrors
        = st.cntErrors + st.pendingMetadata.length
    ∧ (commit_metadata CommitOutcome.integrityError st).store = st.store
    ∧ (commit_metadata CommitOutcome.integrityError st).storeFiles = st.storeFiles :=
  ⟨rfl, rfl, rfl, rfl, rfl⟩

/-- C5: on a connection (interface) error during batch commit the connection
is reinitialised and both pending buffers are left exactly as they were, so
the identical batch is what a subsequent successful commit inserts. -/
theorem claim_C5_interface_retains_batch (st : DBState) :
    (commit_metadata CommitOutcome.interfaceError st).pendingMetadata
        = st.pendingMetadata
    ∧ (commit_metadata CommitOutcome.interfaceError st).pendingFiles
        = st.pendingFiles
    ∧ (commit_metadata CommitOutcome.interfaceError st).store = st.store
    ∧ (commit_metadata CommitOutcome.interfaceError st).reconnects
        = st.reconnects + 1
    ∧ (commit_metadata CommitOutcome.success
        (commit_metadata CommitOutcome.interfaceError st)).store
        = st.store ++ st.pendingMetadata
    ∧ (commit_metadata CommitOutcome.success
        (commit_metadata CommitOutcome.interfaceError st)).storeFiles
        = st.storeFiles ++ st.pendingFiles :=
  ⟨rfl, rfl, rfl, rfl, rfl, rfl⟩

/-- C8: `add_metadata` attempts a commit exactly when, after appending the
new row, the pending metadata buffer has length at least `commit_n`; a
successful call that stays strictly below `commit_n` attempts no commit and
leaves the new row buffered. -/
theorem claim_C8_commit_threshold {h m : List Nat} {now : Nat}
    {o : CommitOutcome} {st st' : DBState} {b : Bool}
    (hcall : add_metadata h m now o st = (st', b)) :
    (st'.commitCount = st.commitCount + 1
      ↔ (b = true ∧ st.commitN ≤ st.pendingMetadata.length + 1))
    ∧ (b = true → st.pendingMetadata.length + 1 < st.commitN →
        st'.commitCount = st.commitCount
        ∧ ∃ r fs, st'.pendingMetadata = st.pendingMetadata ++ [r]
            ∧ st'.pendingFiles = st.pendingFiles ++ fs) := by
  cases hp : (toInfo m).bind processCore with
  | none =>
    have hsnd := add_metadata_snd h m now o st
    rw [hcall, hp] at hsnd
    simp only [Option.isSome_none] at hsnd
    subst hsnd
    have hst : st' = st := add_metadata_false_state hcall
    subst hst
    refine ⟨⟨fun hcc => absurd hcc (by omega), ?_⟩, ?_⟩
    · rintro ⟨hb, _⟩; exact absurd hb (by simp)
    · intro hb; exact absurd hb (by simp)
  | some p =>
    obtain ⟨name, entries⟩ := p
    have he := @add_metadata_some h m now o st name entries hp
    rw [hcall] at he
    dsimp only at he
    rw [List.length_append, List.length_cons, List.length_nil] at he
    by_cases hcond : st.commitN ≤ st.pendingMetadata.length + (0 + 1)
    · rw [if_pos hcond] at he
      have h1 : st' = _ := congrArg Prod.fst he
      have h2 : b = true := congrArg Prod.snd he
      subst h2
      refine ⟨?_, ?_⟩
      · rw [h1, commit_metadata_commitCount]
        constructor
        · intro _; exact ⟨rfl, by omega⟩
        · intro _; rfl
      · intro _ hlt; exact absurd hcond (by omega)
    · rw [if_neg hcond] at he
      have h1 : st' = _ := congrArg Prod.fst he
      have h2 : b = true := congrArg Prod.snd he
      subst h2
      refine ⟨?_, ?_⟩
      · rw [h1]
        dsimp only
        constructor
        · intro hcc; exact absurd hcc (by omega)
        · rintro ⟨_, hge⟩; exact absurd hge (by omega)
      · intro _ _
        rw [h1]
        exact ⟨rfl, ⟨_, _, rfl, rfl⟩⟩

/-- Witness for C8 at the `b"test"` metadata against the sample state
(batch size 10, so no commit fires). -/
theorem claim_C8_witness :
    ((add_metadata hashA testBytes 5 CommitOutcome.success sampleState).1.commitCount
        = sampleState.commitCount + 1
      ↔ ((add_metadata hashA testBytes 5 CommitOutcome.success sampleState).2 = true
          ∧ sampleState.commitN ≤ sampleState.pendingMetadata.length + 1))
    ∧ ((add_metadata hashA testBytes 5 CommitOutcome.success sampleState).2 = true →
        sampleState.pendingMetadata.length + 1 < sampleState.commitN →
        (add_metadata hashA testBytes 5 CommitOutcome.success sampleState).1.commitCount
          = sampleState.commitCount
        ∧ ∃ r fs,
            (add_metadata hashA testBytes 5 CommitOutcome.success sampleState).1.pendingMetadata
              = sampleState.pendingMetadata ++ [r]
            ∧ (add_metadata hashA testBytes 5 CommitOutcome.success sampleState).1.pendingFiles
              = sampleState.pendingFiles ++ fs) :=
  @claim_C8_commit_threshold hashA testBytes 5 CommitOutcome.success sampleState _ _
    (by decide)

/-- The property claim C1 asserts of the persistence layer, stated for an
arbitrary candidate hash function: every `add_metadata` call that buffers a
row relates the handed info_hash to the raw metadata bytes through that
function (for the claim, SHA-1). -/
def metadataHashInvariant (sha1 : List Nat → List Nat) : Prop :=
  ∀ (h m : List Nat) (now : Nat) (o : CommitOutcome) (st st' : DBState),
    add_metadata h m now o st = (st', true) → sha1 m = h

/-- Counterexample to C1: no function whatsoever — in particular not SHA-1 —
relates the metadata bytes to the stored info_hash, because `add_metadata`
accepts the same metadata bytes under two different info_hashes (shown here
with `b"test"` under the all-zero and a second distinct 20-byte hash). -/
theorem claim_C1_counterexample :
    ¬ ∃ sha1 : List Nat → List Nat, metadataHashInvariant sha1 := by
  rintro ⟨f, hf⟩
  have h1 := hf hashA testBytes 5 CommitOutcome.success sampleState
    (add_metadata hashA testBytes 5 CommitOutcome.success sampleState).1 (by decide)
  have h2 := hf hashB testBytes 5 CommitOutcome.success sampleState
    (add_metadata hashB testBytes 5 CommitOutcome.success sampleState).1 (by decide)
  rw [h1] at h2
  exact absurd h2 (by decide)

/-- C1 amended: `add_metadata` performs no hash verification at all — the
acceptance of a metadata blob is independent of the `info_hash` argument,
which is stored as handed in; `SHA1(metadata) == info_hash` holds for
persisted rows only insofar as the caller (the metadata fetcher) guarantees
it before handing over. -/
theorem claim_C1_amended_no_hash_check (h1 h2 m : List Nat) (now : Nat)
    (o : CommitOutcome) (st : DBState) :
    (add_metadata h1 m now o st).2 = (add_metadata h2 m now o st).2 := by
  rw [add_metadata_snd, add_metadata_snd]

/-- Counterexample to C7: metadata whose name carries a NUL byte
(`d6:lengthi1e4:name3:a<NUL>be`) is accepted and buffered — `add_metadata`
checks names for `/` but never for NUL. -/
theorem claim_C7_counterexample :
    (add_metadata hashA nulNameMeta 5 CommitOutcome.success sampleState).2 = true
    ∧ ((add_metadata hashA nulNameMeta 5 CommitOutcome.success
        sampleState).1.pendingMetadata.map (fun r => r.name)) = [[97, 0, 98]]
    ∧ (0 : Nat) ∈ ([97, 0, 98] : List Nat) :=
  ⟨rfl, rfl, by decide⟩

/-- A successful `fileEntry` only returns path items that passed the
`assert not any(b"/" in item for item in file[b"path"])` check: none of them
contains `/`. -/
theorem fileEntry_comps_ok {v : BValue} {e : Int × List (List Nat)}
    (hf : fileEntry v = some e) : ∀ c ∈ e.2, (47 : Nat) ∉ c := by
  unfold fileEntry at hf
  split at hf <;> try exact Option.noConfusion hf
  split at hf <;> try exact Option.noConfusion hf
  split at hf <;> try exact Option.noConfusion hf
  split at hf <;> try exact Option.noConfusion hf
  split at hf
  · exact Option.noConfusion hf
  split at hf
  case isFalse => exact Option.noConfusion hf
  have hpr := Option.some.inj hf
  intro c hc
  rw [← hpr] at hc
  simp_all

/-- Every entry of a successful `filesOf` run carries only slash-free path
items. -/
theorem filesOf_comps_ok : ∀ {l : List BValue}
    {es : List (Int × List (List Nat))}, filesOf l = some es →
    ∀ e ∈ es, ∀ c ∈ e.2, (47 : Nat) ∉ c := by
  intro l
  induction l with
  | nil =>
    intro es hl e he c _
    unfold filesOf at hl
    cases Option.some.inj hl
    exact absurd he (List.not_mem_nil e)
  | cons v vs ih =>
    intro es hl
    unfold filesOf at hl
    rcases Option.bind_eq_some.mp hl with ⟨e1, hfe, hmap⟩
    rcases Option.map_eq_some'.mp hmap with ⟨es1, hrec, heq⟩
    subst heq
    intro e he
    rcases List.mem_cons.mp he with he | he
    · subst he
      exact fileEntry_comps_ok hfe
    · exact ih hrec e he

/-- A successful decode-and-validate stage yields only slash-free path items:
in the multi-file branch by `filesOf`, and in the single-file branch because
the single item is the already-checked name. -/
theorem processCore_components_ok {info : BValue} {name : List Nat}
    {es : List (Int × List (List Nat))}
    (hp : processCore info = some (name, es)) :
    ∀ e ∈ es, ∀ c ∈ e.2, (47 : Nat) ∉ c := by
  unfold processCore at hp
  split at hp <;> try exact Option.noConfusion hp
  split at hp <;> try exact Option.noConfusion hp
  split at hp
  · exact Option.noConfusion hp
  split at hp
  case isFalse => exact Option.noConfusion hp
  split at hp
  · rcases Option.map_eq_some'.mp hp with ⟨fs, hfs, hpair⟩
    have h2 : fs = es := congrArg Prod.snd hpair
    subst h2
    rcases Option.bind_eq_some.mp hfs with ⟨items, _, hfo⟩
    exact filesOf_comps_ok hfo
  split at hp <;> try exact Option.noConfusion hp
  have hpr := Option.some.inj hp
  have h2 : _ = es := congrArg Prod.snd hpr
  intro e he c hc
  rw [← h2] at he
  have he2 := List.mem_singleton.mp he
  subst he2
  have hc2 := List.mem_singleton.mp (by simpa using hc)
  subst hc2
  simp_all

/-- C7 amended: every torrent name ever buffered by `add_metadata` contains
no `/`, and every path item that the source validated (the
`assert not any(b"/" in item for item in file[b"path"])` at
persistence.py line 142) and joined into a buffered file path contains no
`/` — each buffered file path is exactly the `/`-join of its checked items;
NUL bytes, however, are not filtered anywhere. -/
theorem claim_C7_amended_no_slash {h m : List Nat} {now : Nat}
    {o : CommitOutcome} {st st' : DBState} {b : Bool}
    (hcall : add_metadata h m now o st = (st', b))
    (hname : ∀ r ∈ st.bufferedMeta, (47 : Nat) ∉ r.name)
    (hcomp : ∀ comps ∈ st.bufferedComponents, ∀ c ∈ comps, (47 : Nat) ∉ c)
    (hlink : st.bufferedFiles.map (fun f => f.path)
        = st.bufferedComponents.map joinSlash) :
    (∀ r ∈ st'.bufferedMeta, (47 : Nat) ∉ r.name)
    ∧ (∀ comps ∈ st'.bufferedComponents, ∀ c ∈ comps, (47 : Nat) ∉ c)
    ∧ st'.bufferedFiles.map (fun f => f.path)
        = st'.bufferedComponents.map joinSlash := by
  cases hp : (toInfo m).bind processCore with
  | none =>
    have hsnd := add_metadata_snd h m now o st
    rw [hcall, hp] at hsnd
    simp only [Option.isSome_none] at hsnd
    subst hsnd
    have hst : st' = st := add_metadata_false_state hcall
    rw [hst]
    exact ⟨hname, hcomp, hlink⟩
  | some p =>
    obtain ⟨name, entries⟩ := p
    have he := @add_metadata_some h m now o st name entries hp
    rw [hcall] at he
    dsimp only at he
    have h1 : st' = _ := congrArg Prod.fst he
    have hbM : st'.bufferedMeta = st.bufferedMeta
        ++ [⟨h, name, (entries.map (fun e => e.1)).sum, now⟩] := by
      rw [h1]
      split
      · rw [commit_metadata_bufferedMeta]
      · rfl
    have hbF : st'.bufferedFiles = st.bufferedFiles
        ++ entries.map (fun e => ⟨h, e.1, joinSlash e.2⟩) := by
      rw [h1]
      split
      · rw [commit_metadata_bufferedFiles]
      · rfl
    have hbC : st'.bufferedComponents = st.bufferedComponents
        ++ entries.map (fun e => e.2) := by
      rw [h1]
      split
      · rw [commit_metadata_bufferedComponents]
      · rfl
    rcases Option.bind_eq_some.mp hp with ⟨info, _, hpc⟩
    refine ⟨?_, ?_, ?_⟩
    · rw [hbM]
      intro r hr
      rcases List.mem_append.mp hr with hr | hr
      · exact hname r hr
      · have hr2 := List.mem_singleton.mp hr
        subst hr2
        have hnm := processCore_name_ok hpc
        simpa using hnm
    · rw [hbC]
      intro comps hcs
      rcases List.mem_append.mp hcs with hcs | hcs
      · exact hcomp comps hcs
      · rcases List.mem_map.mp hcs with ⟨e, hee, heq⟩
        intro c hcm
        rw [← heq] at hcm
        exact processCore_components_ok hpc e hee c hcm
    · rw [hbF, hbC, List.map_append, List.map_append, List.map_map,
        List.map_map, hlink]
      rfl

/-- Witness for C7's amended statement at the `b"test"` metadata against the
sample state. -/
theorem claim_C7_witness :
    (∀ r ∈ (add_metadata hashA testBytes 5 CommitOutcome.success
        sampleState).1.bufferedMeta, (47 : Nat) ∉ r.name)
    ∧ (∀ comps ∈ (add_metadata hashA testBytes 5 CommitOutcome.success
        sampleState).1.bufferedComponents, ∀ c ∈ comps, (47 : Nat) ∉ c)
    ∧ ((add_metadata hashA testBytes 5 CommitOutcome.success
        sampleState).1.bufferedFiles.map (fun f => f.path)
        = (add_metadata hashA testBytes 5 CommitOutcome.success
            sampleState).1.bufferedComponents.map joinSlash) :=
  @claim_C7_amended_no_slash hashA testBytes 5 CommitOutcome.success sampleState
    (add_metadata hashA testBytes 5 CommitOutcome.success sampleState).1 true
    (by decide) (by decide) (by decide) (by decide)

/-- Counterexample to C6: metadata with file length `0`
(`d6:lengthi0e4:name1:ae`) is not rejected: `add_metadata` returns `True` and
buffers the torrent row (total size 0) and its file row. -/
theorem claim_C6_counterexample :
    bencode_loads zeroLenMeta
      = some (BValue.dict [(lengthKey, BValue.int 0), (nameKey, BValue.str [97])])
    ∧ (add_metadata hashA zeroLenMeta 5 CommitOutcome.success sampleState).2 = true
    ∧ (add_metadata hashA zeroLenMeta 5 CommitOutcome.success
        sampleState).1.pendingMetadata = [⟨hashA, [97], 0, 5⟩]
    ∧ (add_metadata hashA zeroLenMeta 5 CommitOutcome.success
        sampleState).1.pendingFiles = [⟨hashA, 0, [97]⟩] :=
  ⟨rfl, rfl, rfl, rfl⟩

/-- C6 amended: `add_metadata` checks only that a single-file length is a
bencode integer, never its sign — metadata whose decoded `info` has an
integer length `L ≤ 0` (valid name, no `files` key) is accepted and buffered
with size `L`. -/
theorem claim_C6_amended_accepts_nonpositive {st : DBState}
    {h m name : List Nat} {now : Nat} {o : CommitOutcome}
    {d : List (List Nat × BValue)} {L : Int}
    (hm : bencode_loads m = some (BValue.dict d))
    (hn : lookupB d nameKey = some (BValue.str name))
    (hs : name.contains 47 = false)
    (hu : isValidUtf8 name = true)
    (hf : lookupB d filesKey = none)
    (hl : lookupB d lengthKey = some (BValue.int L))
    (hL : L ≤ 0) :
    (add_metadata h m now o st).2 = true
    ∧ (add_metadata h m now o st).1.bufferedMeta
        = st.bufferedMeta ++ [⟨h, name, L, now⟩]
    ∧ (add_metadata h m now o st).1.bufferedFiles
        = st.bufferedFiles ++ [⟨h, L, name⟩] := by
  have hmt : m ≠ testBytes := by
    intro he
    rw [he] at hm
    have hnone : bencode_loads testBytes = none := rfl
    rw [hnone] at hm
    exact Option.noConfusion hm
  have hinfo : toInfo m = some (BValue.dict d) := by
    unfold toInfo
    rw [if_neg hmt]
    exact hm
  have hcore : processCore (BValue.dict d) = some (name, [(L, [name])]) := by
    have hs2 : (47 : Nat) ∉ name := by simpa using hs
    unfold processCore
    simp [hn, hs2, hu, hf, hl]
  have hbind : (toInfo m).bind processCore = some (name, [(L, [name])]) := by
    rw [hinfo]
    simpa using hcore
  have he := @add_metadata_some h m now o st name [(L, [name])] hbind
  refine ⟨?_, ?_, ?_⟩ <;> rw [he] <;> dsimp only <;> split <;>
    simp [commit_metadata_bufferedMeta, commit_metadata_bufferedFiles, joinSlash]

/-- Witness for C6's amended statement: length 0 metadata against the sample
state. -/
theorem claim_C6_witness :
    (add_metadata hashA zeroLenMeta 5 CommitOutcome.success sampleState).2 = true
    ∧ (add_metadata hashA zeroLenMeta 5 CommitOutcome.success
        sampleState).1.bufferedMeta
        = sampleState.bufferedMeta ++ [⟨hashA, [97], 0, 5⟩]
    ∧ (add_metadata hashA zeroLenMeta 5 CommitOutcome.success
        sampleState).1.bufferedFiles
        = sampleState.bufferedFiles ++ [⟨hashA, 0, [97]⟩] :=
  @claim_C6_amended_accepts_nonpositive sampleState hashA zeroLenMeta [97] 5
    CommitOutcome.success [(lengthKey, BValue.int 0), (nameKey, BValue.str [97])]
    0 rfl rfl rfl rfl rfl rfl (by decide)

/-- Characterisation of `is_infohash_new` (without the external cache): it
returns `False` exactly when the hash sits in the pending batch or a torrent
row with this `info_hash` exists in the durable store. -/
theorem is_infohash_new_spec (h : List Nat) (st : DBState) :
    ∃ b : Bool, (is_infohash_new h false st).2 = some b
      ∧ (b = false ↔ (h ∈ st.pendingMetadata.map (fun r => r.info_hash)
          ∨ ∃ r ∈ st.store, r.info_hash = h)) := by
  by_cases hp : h ∈ st.pendingMetadata.map (fun r => r.info_hash)
  · refine ⟨false, ?_, ?_⟩
    · simp [is_infohash_new, hp]
    · simp [hp]
  · refine ⟨(st.store.filter (fun r => r.info_hash == h)).length == 0, ?_, ?_⟩
    · simp [is_infohash_new, hp]
    · constructor
      · intro hb
        right
        have hx : (st.store.filter (fun r => r.info_hash == h)).length ≠ 0 := by
          simpa using hb
        have hnn : st.store.filter (fun r => r.info_hash == h) ≠ [] := by
          intro hnil
          rw [hnil] at hx
          exact hx rfl
        rcases List.exists_mem_of_ne_nil _ hnn with ⟨r, hr⟩
        have hrr := List.mem_filter.mp hr
        exact ⟨r, hrr.1, by simpa using hrr.2⟩
      · rintro (hmem | ⟨r, hrs, hrh⟩)
        · exact absurd hmem hp
        · have hrf : r ∈ st.store.filter (fun r => r.info_hash == h) :=
            List.mem_filter.mpr ⟨hrs, by simp [hrh]⟩
          have hlen : (st.store.filter (fun r => r.info_hash == h)).length ≠ 0 := by
            have := List.length_pos.mpr (List.ne_nil_of_mem hrf)
            omega
          simpa using hlen

/-- C2: the infohash filter answers "not new" (`False`) exactly when the
hash has been observed in the current pending batch, or a torrent with this
`info_hash` exists in the durable store, or it is present in the optional
external cache; otherwise it answers `True`. -/
theorem claim_C2_is_new_filter (cache : Option (List (List Nat)))
    (h : List Nat) (st : DBState) :
    ∃ b : Bool, (is_new_with_cache cache h st).2 = some b
      ∧ (b = false ↔ (h ∈ st.pendingMetadata.map (fun r => r.info_hash)
          ∨ (∃ r ∈ st.store, r.info_hash = h)
          ∨ (∃ c, cache = some c ∧ h ∈ c))) := by
  cases cache with
  | none =>
    rcases is_infohash_new_spec h st with ⟨b, hb, hiff⟩
    refine ⟨b, by simpa [is_new_with_cache] using hb, ?_⟩
    rw [hiff]
    have hnc : ¬ ∃ c, (none : Option (List (List Nat))) = some c ∧ h ∈ c := by
      rintro ⟨c, hc, _⟩
      exact Option.noConfusion hc
    constructor
    · rintro (ha | hb2)
      · exact Or.inl ha
      · exact Or.inr (Or.inl hb2)
    · rintro (ha | hb2 | hcex)
      · exact Or.inl ha
      · exact Or.inr hb2
      · exact absurd hcex hnc
  | some c =>
    by_cases hc : h ∈ c
    · refine ⟨false, by simp [is_new_with_cache, hc], ?_⟩
      constructor
      · intro _
        exact Or.inr (Or.inr ⟨c, rfl, hc⟩)
      · intro _
        rfl
    · rcases is_infohash_new_spec h st with ⟨b, hb, hiff⟩
      refine ⟨b, by simpa [is_new_with_cache, hc] using hb, ?_⟩
      rw [hiff]
      have hnc : ¬ ∃ c2, (some c : Option (List (List Nat))) = some c2 ∧ h ∈ c2 := by
        rintro ⟨c2, hc2, hm⟩
        cases Option.some.inj hc2
        exact hc hm
      constructor
      · rintro (ha | hb2)
        · exact Or.inl ha
        · exact Or.inr (Or.inl hb2)
      · rintro (ha | hb2 | hcex)
        · exact Or.inl ha
        · exact Or.inr hb2
        · exact absurd hcex hnc

/-- The running minimum over torrent ids never exceeds its initial value. -/
theorem foldl_min_le_init (l : List StoredTorrent) (a : Nat) :
    l.foldl (fun m s => Nat.min m s.id) a ≤ a := by
  induction l generalizing a with
  | nil => exact Nat.le_refl a
  | cons x xs ih => exact Nat.le_trans (ih (Nat.min a x.id)) (Nat.min_le_left a x.id)

/-- The running minimum over torrent ids bounds every member id below. -/
theorem foldl_min_le_mem (l : List StoredTorrent) (a : Nat) (s : StoredTorrent)
    (hs : s ∈ l) : l.foldl (fun m s => Nat.min m s.id) a ≤ s.id := by
  induction l generalizing a with
  | nil => cases hs
  | cons x xs ih =>
    rcases List.mem_cons.mp hs with h | h
    · subst h
      exact Nat.le_trans (foldl_min_le_init xs _) (Nat.min_le_right a s.id)
    · exact ih _ h

/-- The running maximum over torrent ids is at least its initial value. -/
theorem init_le_foldl_max (l : List StoredTorrent) (a : Nat) :
    a ≤ l.foldl (fun m s => Nat.max m s.id) a := by
  induction l generalizing a with
  | nil => exact Nat.le_refl a
  | cons x xs ih => exact Nat.le_trans (Nat.le_max_left a x.id) (ih (Nat.max a x.id))

/-- The running maximum over torrent ids bounds every member id above. -/
theorem mem_le_foldl_max (l : List StoredTorrent) (a : Nat) (s : StoredTorrent)
    (hs : s ∈ l) : s.id ≤ l.foldl (fun m s => Nat.max m s.id) a := by
  induction l generalizing a with
  | nil => cases hs
  | cons x xs ih =>
    rcases List.mem_cons.mp hs with h | h
    · subst h
      exact Nat.le_trans (Nat.le_max_right a s.id) (init_le_foldl_max xs _)
    · exact ih _ h

/-- Dropping a source element on which every block predicate is false does
not change the per-block selection. -/
theorem flatMap_filter_skip {β : Type} (f : StoredTorrent → β)
    (p : Nat → StoredTorrent → Bool) (x : StoredTorrent)
    (s2 : List StoredTorrent) (idx : List Nat)
    (hnone : ∀ ch ∈ idx, p ch x = false) :
    idx.flatMap (fun ch => ((x :: s2).filter (p ch)).map f)
      = idx.flatMap (fun ch => (s2.filter (p ch)).map f) := by
  induction idx with
  | nil => rfl
  | cons ch rest ih =>
    rw [List.flatMap_cons, List.flatMap_cons]
    rw [List.filter_cons_of_neg (by simp [hnone ch (List.mem_cons_self ch rest)])]
    rw [ih (fun c hc => hnone c (List.mem_cons.mpr (Or.inr hc)))]

/-- A source element selected by exactly one block of a duplicate-free block
list contributes exactly one occurrence to the concatenated selection. -/
theorem flatMap_filter_cons_perm {β : Type} (f : StoredTorrent → β)
    (p : Nat → StoredTorrent → Bool) (x : StoredTorrent)
    (s2 : List StoredTorrent) :
    ∀ (idx : List Nat), idx.Nodup →
    (∃ k ∈ idx, p k x = true ∧ ∀ k2 ∈ idx, p k2 x = true → k2 = k) →
    (idx.flatMap (fun ch => ((x :: s2).filter (p ch)).map f)).Perm
      (f x :: idx.flatMap (fun ch => (s2.filter (p ch)).map f)) := by
  intro idx
  induction idx with
  | nil =>
    rintro _ ⟨k, hk, _⟩
    cases hk
  | cons ch rest ih =>
    rintro hnd ⟨k, hkmem, hpk, huniq⟩
    rcases List.nodup_cons.mp hnd with ⟨hch, hndr⟩
    by_cases hpc : p ch x = true
    · have hkch : ch = k := huniq ch (List.mem_cons_self _ _) hpc
      have hrest : ∀ c ∈ rest, p c x = false := by
        intro c hc
        cases hpcx : p c x with
        | false => rfl
        | true =>
          have hck : c = k := huniq c (List.mem_cons.mpr (Or.inr hc)) hpcx
          rw [hck, ← hkch] at hc
          exact absurd hc hch
      rw [List.flatMap_cons, List.flatMap_cons]
      rw [List.filter_cons_of_pos (by simp [hpc])]
      rw [flatMap_filter_skip f p x s2 rest hrest]
      simp only [List.map_cons, List.cons_append]
      exact List.Perm.refl _
    · have hkr : k ∈ rest := by
        rcases List.mem_cons.mp hkmem with hk | hk
        · subst hk
          exact absurd hpk hpc
        · exact hk
      have hnext : ∃ k2 ∈ rest, p k2 x = true ∧ ∀ k3 ∈ rest, p k3 x = true → k3 = k2 :=
        ⟨k, hkr, hpk, fun k3 hk3 hp3 => huniq k3 (List.mem_cons.mpr (Or.inr hk3)) hp3⟩
      rw [List.flatMap_cons, List.flatMap_cons]
      rw [List.filter_cons_of_neg (by simp [hpc])]
      have hperm := List.Perm.append_left ((s2.filter (p ch)).map f) (ih hndr hnext)
      exact hperm.trans List.perm_middle

/-- When every source element is selected by exactly one block of a
duplicate-free block list, the concatenation of the per-block selections is
a permutation of the image of the whole source. -/
theorem flatMap_filter_perm {β : Type} (f : StoredTorrent → β)
    (p : Nat → StoredTorrent → Bool) :
    ∀ (s : List StoredTorrent) (idx : List Nat), idx.Nodup →
    (∀ x ∈ s, ∃ k ∈ idx, p k x = true ∧ ∀ k2 ∈ idx, p k2 x = true → k2 = k) →
    (idx.flatMap (fun ch => (s.filter (p ch)).map f)).Perm (s.map f) := by
  intro s
  induction s with
  | nil =>
    intro idx _ _
    simp
  | cons x s2 ih =>
    intro idx hnd hex
    have h1 := flatMap_filter_cons_perm f p x s2 idx hnd (hex x (List.mem_cons_self _ _))
    have h2 := ih idx hnd (fun y hy => hex y (List.mem_cons.mpr (Or.inr hy)))
    rw [List.map_cons]
    exact h1.trans (h2.cons (f x))

/-- C9: warm-up mode walks the id space of the (nonempty) torrents table in
`chunk_size` blocks and issues, across all blocks together, exactly one
cache write `(base32(info_hash), "1")` per stored torrent (a permutation of
the per-torrent writes); with `--heat-memcache` set, `main` takes the
heat-and-exit path and starts no DHT node. -/
theorem claim_C9_heat_memcache (store : List StoredTorrent) (chunk_size : Nat)
    (hne : store ≠ []) (hcs : 0 < chunk_size) :
    mainAction true = MainAction.heatAndExit
    ∧ ∃ w, heat_memcache store chunk_size = some w
        ∧ w.Perm (store.map heatWrite) := by
  refine ⟨rfl, ?_⟩
  cases store with
  | nil => exact absurd rfl hne
  | cons t ts =>
    refine ⟨_, rfl, ?_⟩
    apply flatMap_filter_perm heatWrite
      (inChunk chunk_size (ts.foldl (fun m s => Nat.min m s.id) t.id))
      (t :: ts) _ (List.nodup_range _)
    intro x hx
    set c := chunk_size with hc
    set lo := ts.foldl (fun m s => Nat.min m s.id) t.id with hlodef
    set hi := ts.foldl (fun m s => Nat.max m s.id) t.id with hhidef
    have hlo : lo ≤ x.id := by
      rcases List.mem_cons.mp hx with h | h
      · rw [h, hlodef]
        exact foldl_min_le_init ts t.id
      · exact foldl_min_le_mem ts t.id x h
    have hhi : x.id ≤ hi := by
      rcases List.mem_cons.mp hx with h | h
      · rw [h, hhidef]
        exact init_le_foldl_max ts t.id
      · exact mem_le_foldl_max ts t.id x h
    have hdm := Nat.div_add_mod (x.id - lo) c
    rw [Nat.mul_comm] at hdm
    have hmlt := Nat.mod_lt (x.id - lo) hcs
    have hle : (x.id - lo) / c * c ≤ x.id - lo := Nat.div_mul_le_self _ _
    refine ⟨(x.id - lo) / c, ?_, ?_, ?_⟩
    · apply List.mem_range.mpr
      have h1 : x.id - lo ≤ hi + 1 - lo := by omega
      have h2 : (x.id - lo) / c ≤ (hi + 1 - lo) / c := Nat.div_le_div_right h1
      omega
    · unfold inChunk
      simp only [Bool.and_eq_true, decide_eq_true_eq]
      omega
    · intro k2 hk2 hp2
      unfold inChunk at hp2
      simp only [Bool.and_eq_true, decide_eq_true_eq] at hp2
      obtain ⟨ha2, hb2⟩ := hp2
      have h1 : k2 * c ≤ x.id - lo := by omega
      have h2 : x.id - lo < (k2 + 1) * c := by
        rw [Nat.succ_mul]
        omega
      exact (Nat.div_eq_of_lt_le h1 h2).symm

/-- Witness for C9 on a concrete two-row store with the default block size
10000. -/
theorem claim_C9_witness :
    mainAction true = MainAction.heatAndExit
    ∧ ∃ w, heat_memcache [⟨1, hashA⟩, ⟨2, hashB⟩] 10000 = some w
        ∧ w.Perm ([⟨1, hashA⟩, ⟨2, hashB⟩].map heatWrite) :=
  claim_C9_heat_memcache [⟨1, hashA⟩, ⟨2, hashB⟩] 10000
    (List.cons_ne_nil _ _) (by decide)
